import Mathlib

/-!
Verification of the RSS-ingestion pipeline in `scripts/fetch_rss_news.py`.

Modelling conventions:
* Python strings are modelled as `List Char` (a Python `str` is a sequence of
  code points); `String` literals are used for readability at API boundaries
  and converted with `String.data`.
* `str.lower()` is modelled by `Char.toLower` pointwise.  All keyword tables
  in the script are ASCII, where the two agree.
* Python's substring test `kw in text` is modelled by `containsSub`.
* Python 3.7+ `dict` preserves insertion order, so the keyword tables are
  modelled as association lists in declaration order.
-/

namespace RssFetch

/-- `pat` is a prefix of `s` (Python `s.startswith(pat)` on char lists). -/
def startsWithL : List Char → List Char → Bool
  | _, [] => true
  | [], _ :: _ => false
  | c :: s, p :: ps => c == p && startsWithL s ps

/-- Python's substring containment `pat in s`: some suffix of `s` starts
with `pat`.  The empty pattern is contained in every string. -/
def containsSub (s pat : List Char) : Bool :=
  match s with
  | [] => startsWithL [] pat
  | _ :: t => startsWithL s pat || containsSub t pat

/-- `str.lower()` (ASCII fragment). -/
def lowerStr (s : List Char) : List Char := s.map Char.toLower

/-- `CATEGORY_KEYWORDS` from the script: an insertion-ordered table of
category slugs and keyword lists. -/
def CATEGORY_KEYWORDS : List (String × List String) :=
  [("vulnerabilities", ["vulnerability", "cve", "exploit", "zero-day", "patch",
      "security flaw", "bug"]),
   ("ransomware", ["ransomware", "lockbit", "blackcat", "alphv", "conti", "ransom"]),
   ("data-breaches", ["breach", "leak", "exposed", "compromised", "stolen data"]),
   ("malware", ["malware", "trojan", "virus", "backdoor", "rat", "infostealer",
      "botnet"]),
   ("phishing", ["phishing", "scam", "social engineering", "bec", "email attack"]),
   ("threat-actors", ["apt", "threat actor", "hacker group", "nation-state",
      "lazarus", "apt29"]),
   ("compliance", ["compliance", "regulation", "gdpr", "hipaa", "pci"])]

/-- `SEVERITY_KEYWORDS` from the script. -/
def SEVERITY_KEYWORDS : List (String × List String) :=
  [("critical", ["critical", "urgent", "emergency", "zero-day",
      "actively exploited", "rce"]),
   ("high", ["high", "severe", "major", "important", "exploit"]),
   ("low", ["low", "minor", "informational"])]

/-- The inner loop of `categorize_article` / `determine_severity`: does any
keyword of the list occur in the text?  (`for keyword in keywords: if keyword
in text: ...`). -/
def keywordHit (text : List Char) (kws : List String) : Bool :=
  kws.any fun kw => containsSub text kw.data

/-- The outer loop shared by `categorize_article` and `determine_severity`:
first label, in table order, one of whose keywords occurs in the text;
`dflt` when none does. -/
def firstMatch (table : List (String × List String)) (text : List Char)
    (dflt : String) : String :=
  match table with
  | [] => dflt
  | (label, kws) :: rest =>
      if keywordHit text kws then label else firstMatch rest text dflt

/-- `(title + " " + content).lower()`. -/
def combinedText (title content : String) : List Char :=
  lowerStr (title.data ++ ' ' :: content.data)

/-- `categorize_article(title, content)` from the script. -/
def categorize_article (title content : String) : String :=
  firstMatch CATEGORY_KEYWORDS (combinedText title content) "industry-news"

/-- `determine_severity(title, content)` from the script. -/
def determine_severity (title content : String) : String :=
  firstMatch SEVERITY_KEYWORDS (combinedText title content) "medium"

theorem firstMatch_split (pre : List (String × List String)) (K : String)
    (kws : List String) (post : List (String × List String))
    (text : List Char) (dflt : String)
    (hpre : ∀ p ∈ pre, keywordHit text p.2 = false)
    (hK : keywordHit text kws = true) :
    firstMatch (pre ++ (K, kws) :: post) text dflt = K := by
  induction pre with
  | nil => simp [firstMatch, hK]
  | cons hd tl ih =>
      have hhd : keywordHit text hd.2 = false := hpre hd (by simp)
      cases hd with
      | mk label ks =>
          simp only [List.cons_append, firstMatch, hhd, Bool.false_eq_true,
            if_false]
          exact ih fun p hp => hpre p (by simp [hp])

theorem firstMatch_none (table : List (String × List String))
    (text : List Char) (dflt : String)
    (h : ∀ p ∈ table, keywordHit text p.2 = false) :
    firstMatch table text dflt = dflt := by
  induction table with
  | nil => rfl
  | cons hd tl ih =>
      cases hd with
      | mk label ks =>
          have hhd : keywordHit text (label, ks).2 = false := h _ (by simp)
          simp only [firstMatch, hhd, Bool.false_eq_true, if_false]
          exact ih fun p hp => h p (by simp [hp])

/-- C1: `categorize_article` lowercases `title ++ " " ++ content` and returns
the first category, in declared table order, one of whose keywords occurs as
a substring of that text; if no keyword of any category occurs it returns
`"industry-news"`.  In particular, for any text containing a keyword of
category `K` and no keyword of an earlier-declared category, the result
is `K`. -/
theorem C1_categorize_first_match (title content : String) :
    (∀ pre K kws post, CATEGORY_KEYWORDS = pre ++ (K, kws) :: post →
        (∀ p ∈ pre, keywordHit (combinedText title content) p.2 = false) →
        keywordHit (combinedText title content) kws = true →
        categorize_article title content = K) ∧
    ((∀ p ∈ CATEGORY_KEYWORDS,
        keywordHit (combinedText title content) p.2 = false) →
      categorize_article title content = "industry-news") := by
  constructor
  · intro pre K kws post hsplit hpre hK
    unfold categorize_article
    rw [hsplit]
    exact firstMatch_split pre K kws post _ _ hpre hK
  · intro h
    exact firstMatch_none CATEGORY_KEYWORDS _ _ h

/-- Witness for C1 at the spec's example input: the vulnerability keyword
matches and no earlier category exists, so the result is
`"vulnerabilities"`. -/
theorem C1_categorize_first_match_witness :
    categorize_article "Critical RCE vulnerability in product X" "" =
      "vulnerabilities" :=
  (C1_categorize_first_match "Critical RCE vulnerability in product X" "").1
    [] "vulnerabilities"
    ["vulnerability", "cve", "exploit", "zero-day", "patch", "security flaw",
     "bug"]
    (CATEGORY_KEYWORDS.drop 1)
    rfl (by simp) (by decide)

/-! ### `extract_cves`

The script runs `re.findall(r"CVE-\d{4}-\d+", text, re.IGNORECASE)`,
uppercases every match and deduplicates via `set`.  The scanner below is
`re.findall` for this fixed pattern: at each position try to match
(`matchCveAt`), on success emit the (greedy) match and resume after it,
on failure advance one character.  Digits are ASCII `0-9` and case
insensitivity is ASCII, matching the script's data. -/

/-- Attempt the pattern `CVE-\d{4}-\d+` (case-insensitive) at the head of
the list; on success return the greedy match and the remaining suffix. -/
def matchCveAt : List Char → Option (List Char × List Char)
  | c1 :: c2 :: c3 :: h1 :: d1 :: d2 :: d3 :: d4 :: h2 :: d5 :: rest =>
      if c1.toLower == 'c' && c2.toLower == 'v' && c3.toLower == 'e' &&
          h1 == '-' && d1.isDigit && d2.isDigit && d3.isDigit && d4.isDigit &&
          h2 == '-' && d5.isDigit then
        some (c1 :: c2 :: c3 :: h1 :: d1 :: d2 :: d3 :: d4 :: h2 :: d5 ::
                rest.takeWhile Char.isDigit,
              rest.dropWhile Char.isDigit)
      else none
  | _ => none

/-- The claim's pattern, as a predicate on the matched text itself:
`CVE` (any case), hyphen, exactly 4 ASCII digits, hyphen, one or more
ASCII digits. -/
def cveShape : List Char → Bool
  | c1 :: c2 :: c3 :: h1 :: d1 :: d2 :: d3 :: d4 :: h2 :: d5 :: ds =>
      c1.toLower == 'c' && c2.toLower == 'v' && c3.toLower == 'e' &&
      h1 == '-' && d1.isDigit && d2.isDigit && d3.isDigit && d4.isDigit &&
      h2 == '-' && d5.isDigit && ds.all Char.isDigit
  | _ => false

/-- Greedy-match boundary: the list does not begin with an ASCII digit. -/
def noDigitHead : List Char → Bool
  | [] => true
  | c :: _ => !c.isDigit

theorem noDigitHead_dropWhile (l : List Char) :
    noDigitHead (l.dropWhile Char.isDigit) = true := by
  induction l with
  | nil => rfl
  | cons c t ih =>
      by_cases h : c.isDigit = true
      · simpa [List.dropWhile_cons_of_pos h] using ih
      · simp only [Bool.not_eq_true] at h
        simp [List.dropWhile_cons_of_neg, noDigitHead, h]

theorem takeWhile_eq_nil_of_noDigitHead {r : List Char}
    (h : noDigitHead r = true) : r.takeWhile Char.isDigit = [] := by
  cases r with
  | nil => rfl
  | cons c t =>
      simp only [noDigitHead, Bool.not_eq_true'] at h
      simp [List.takeWhile_cons_of_neg, h]

theorem dropWhile_eq_self_of_noDigitHead {r : List Char}
    (h : noDigitHead r = true) : r.dropWhile Char.isDigit = r := by
  cases r with
  | nil => rfl
  | cons c t =>
      simp only [noDigitHead, Bool.not_eq_true'] at h
      simp [List.dropWhile_cons_of_neg, h]

/-- `matchCveAt` succeeds exactly on a decomposition `l = m ++ r` where `m`
has the CVE shape and the greedy boundary holds: `r` does not start with a
digit. -/
theorem matchCveAt_some_iff {l m r : List Char} :
    matchCveAt l = some (m, r) ↔
      l = m ++ r ∧ cveShape m = true ∧ noDigitHead r = true := by
  constructor
  · intro h
    match l with
    | c1 :: c2 :: c3 :: h1 :: d1 :: d2 :: d3 :: d4 :: h2 :: d5 :: rest =>
        rw [matchCveAt] at h
        split at h
        · rename_i hcond
          simp only [Option.some.injEq, Prod.mk.injEq] at h
          obtain ⟨hm, hr⟩ := h
          simp only [Bool.and_eq_true] at hcond
          refine ⟨?_, ?_, ?_⟩
          · rw [← hm, ← hr]
            simp [List.takeWhile_append_dropWhile]
          · rw [← hm]
            simp only [cveShape, Bool.and_eq_true]
            exact ⟨hcond, List.all_eq_true.2 fun c hc =>
              List.mem_takeWhile_imp hc⟩
          · rw [← hr]
            exact noDigitHead_dropWhile rest
        · exact absurd h (by simp)
    | [] =>
        rw [matchCveAt] at h
        · exact absurd h (by simp)
        · intros; simp_all
    | [a] =>
        rw [matchCveAt] at h
        · exact absurd h (by simp)
        · intros; simp_all
    | [a, b] =>
        rw [matchCveAt] at h
        · exact absurd h (by simp)
        · intros; simp_all
    | [a, b, c] =>
        rw [matchCveAt] at h
        · exact absurd h (by simp)
        · intros; simp_all
    | [a, b, c, d] =>
        rw [matchCveAt] at h
        · exact absurd h (by simp)
        · intros; simp_all
    | [a, b, c, d, e] =>
        rw [matchCveAt] at h
        · exact absurd h (by simp)
        · intros; simp_all
    | [a, b, c, d, e, f] =>
        rw [matchCveAt] at h
        · exact absurd h (by simp)
        · intros; simp_all
    | [a, b, c, d, e, f, g] =>
        rw [matchCveAt] at h
        · exact absurd h (by simp)
        · intros; simp_all
    | [a, b, c, d, e, f, g, i] =>
        rw [matchCveAt] at h
        · exact absurd h (by simp)
        · intros; simp_all
    | [a, b, c, d, e, f, g, i, j] =>
        rw [matchCveAt] at h
        · exact absurd h (by simp)
        · intros; simp_all
  · rintro ⟨hl, hs, hb⟩
    match m, hs with
    | c1 :: c2 :: c3 :: h1 :: d1 :: d2 :: d3 :: d4 :: h2 :: d5 :: ds, hs =>
        simp only [cveShape, Bool.and_eq_true] at hs
        subst hl
        simp only [List.cons_append]
        rw [matchCveAt]
        have hall : ∀ a ∈ ds, Char.isDigit a = true :=
          fun a ha => List.all_eq_true.1 hs.2 a ha
        rw [if_pos]
        · have ht : (ds ++ r).takeWhile Char.isDigit = ds := by
            rw [List.takeWhile_append_of_pos hall,
              takeWhile_eq_nil_of_noDigitHead hb, List.append_nil]
          have hd : (ds ++ r).dropWhile Char.isDigit = r := by
            rw [List.dropWhile_append_of_pos hall,
              dropWhile_eq_self_of_noDigitHead hb]
          rw [ht, hd]
        · simp only [Bool.and_eq_true]
          exact hs.1


theorem cveShape_ne_nil {m : List Char} (h : cveShape m = true) : m ≠ [] := by
  intro he
  subst he
  exact absurd h (by decide)

theorem matchCveAt_rest_length {l m r : List Char}
    (h : matchCveAt l = some (m, r)) : r.length < l.length := by
  obtain ⟨hl, hs, -⟩ := matchCveAt_some_iff.1 h
  subst hl
  cases m with
  | nil => exact absurd rfl (cveShape_ne_nil hs)
  | cons a t =>
      simp only [List.cons_append, List.length_cons, List.length_append]
      omega

/-- `re.findall` for the CVE pattern, written with explicit fuel so that the
recursion is structural (each step consumes at least one character, so
`l.length` fuel always suffices).  At each position: try to match; on
success emit the greedy match and resume after it; on failure advance one
character. -/
def findCvesAux : Nat → List Char → List (List Char)
  | 0, _ => []
  | _ + 1, [] => []
  | fuel + 1, c :: rest =>
      match matchCveAt (c :: rest) with
      | some (m, r) => m :: findCvesAux fuel r
      | none => findCvesAux fuel rest

/-- `re.findall` for the CVE pattern: all non-overlapping, leftmost,
greedy matches in order. -/
def findCves (l : List Char) : List (List Char) :=
  findCvesAux l.length l

theorem findCvesAux_fuel : ∀ (fuel : Nat) (l : List Char), l.length ≤ fuel →
    findCvesAux fuel l = findCvesAux l.length l := by
  intro fuel
  induction fuel using Nat.strong_induction_on with
  | _ fuel ih =>
      intro l h
      match fuel, l with
      | 0, [] => rfl
      | 0, c :: rest => simp at h
      | f + 1, [] => rfl
      | f + 1, c :: rest =>
          simp only [List.length_cons] at h
          simp only [findCvesAux, List.length_cons]
          cases hmc : matchCveAt (c :: rest) with
          | some mr =>
              obtain ⟨m, r⟩ := mr
              have hr : r.length ≤ rest.length := by
                have := matchCveAt_rest_length hmc
                simp only [List.length_cons] at this
                omega
              show m :: findCvesAux f r = m :: findCvesAux rest.length r
              rw [ih f (by omega) r (by omega),
                ih rest.length (by omega) r hr]
          | none =>
              show findCvesAux f rest = findCvesAux rest.length rest
              rw [ih f (by omega) rest (by omega),
                ih rest.length (by omega) rest (le_refl _)]

/-- `extract_cves(text)` from the script:
`list(set(cve.upper() for cve in re.findall(pattern, text, re.IGNORECASE)))`.
Python's `set` iteration order is unspecified, so the deduplicated list is
modelled with `List.dedup`; the theorems below use only membership and
`Nodup`, which are order-independent. -/
def extract_cves (text : String) : List String :=
  ((findCves text.data).map fun m => String.mk (m.map Char.toUpper)).dedup

theorem digit_toNat_le {c : Char} (h : c.isDigit = true) : c.toNat ≤ 57 := by
  simp only [Char.isDigit, Bool.and_eq_true, decide_eq_true_eq] at h
  exact UInt32.toNat_le_of_le (by norm_num [UInt32.size]) h.2

theorem digit_toLower_self {c : Char} (h : c.isDigit = true) : c.toLower = c := by
  have h2 := digit_toNat_le h
  unfold Char.toLower
  rw [if_neg (by omega)]

theorem digit_toLower_ne_c {c : Char} (h : c.isDigit = true) :
    (c.toLower == 'c') = false := by
  rw [digit_toLower_self h]
  simp only [beq_eq_false_iff_ne, ne_eq]
  intro he
  subst he
  exact absurd h (by decide)

theorem cveShape_head {m : List Char} (h : cveShape m = true) :
    ∃ c1 mt, m = c1 :: mt ∧ c1.toLower = 'c' := by
  match m, h with
  | c1 :: c2 :: c3 :: h1 :: d1 :: d2 :: d3 :: d4 :: h2 :: d5 :: ds, h =>
      simp only [cveShape, Bool.and_eq_true, beq_iff_eq] at h
      exact ⟨c1, _, rfl, h.1.1.1.1.1.1.1.1.1.1⟩

/-- No character after the first one of a CVE-shaped match can start a new
match: none of them lowercases to `c`.  This is why the pattern's matches
never overlap. -/
theorem cveShape_tail_no_c {m : List Char} (h : cveShape m = true) :
    ∀ x ∈ m.tail, (x.toLower == 'c') = false := by
  match m, h with
  | c1 :: c2 :: c3 :: h1 :: d1 :: d2 :: d3 :: d4 :: h2 :: d5 :: ds, h =>
      simp only [cveShape, Bool.and_eq_true, beq_iff_eq] at h
      obtain ⟨⟨⟨⟨⟨⟨⟨⟨⟨⟨hc1, hc2⟩, hc3⟩, hh1⟩, hd1⟩, hd2⟩, hd3⟩, hd4⟩, hh2⟩,
        hd5⟩, hds⟩ := h
      intro x hx
      simp only [List.tail_cons, List.mem_cons] at hx
      rcases hx with rfl | rfl | rfl | rfl | rfl | rfl | rfl | rfl | rfl | hx
      · rw [hc2]; decide
      · rw [hc3]; decide
      · rw [hh1]; decide
      · exact digit_toLower_ne_c hd1
      · exact digit_toLower_ne_c hd2
      · exact digit_toLower_ne_c hd3
      · exact digit_toLower_ne_c hd4
      · rw [hh2]; decide
      · exact digit_toLower_ne_c hd5
      · exact digit_toLower_ne_c (List.all_eq_true.1 hds x hx)

theorem findCves_cons_some {c : Char} {rest m r : List Char}
    (h : matchCveAt (c :: rest) = some (m, r)) :
    findCves (c :: rest) = m :: findCves r := by
  have hr : r.length ≤ rest.length := by
    have := matchCveAt_rest_length h
    simp only [List.length_cons] at this
    omega
  unfold findCves
  simp only [List.length_cons, findCvesAux]
  rw [h]
  show m :: findCvesAux rest.length r = m :: findCvesAux r.length r
  rw [findCvesAux_fuel rest.length r hr]

theorem findCves_cons_none {c : Char} {rest : List Char}
    (h : matchCveAt (c :: rest) = none) :
    findCves (c :: rest) = findCves rest := by
  unfold findCves
  simp only [List.length_cons, findCvesAux]
  rw [h]

/-- Soundness of the scanner: everything reported is a greedy occurrence. -/
theorem findCves_sound : ∀ (n : Nat) (l m : List Char), l.length ≤ n →
    m ∈ findCves l →
    ∃ pre post, l = pre ++ m ++ post ∧ cveShape m = true ∧
      noDigitHead post = true := by
  intro n
  induction n with
  | zero =>
      intro l m hn hm
      have : l = [] := List.length_eq_zero.1 (Nat.le_zero.1 hn)
      subst this
      exact absurd hm (by simp [findCves, findCvesAux])
  | succ n ih =>
      intro l m hn hm
      cases l with
      | nil => exact absurd hm (by simp [findCves, findCvesAux])
      | cons c rest =>
          simp only [List.length_cons] at hn
          cases hmc : matchCveAt (c :: rest) with
          | some mr =>
              obtain ⟨m0, r⟩ := mr
              have hrlen : r.length ≤ n := by
                have := matchCveAt_rest_length hmc
                simp only [List.length_cons] at this
                omega
              rw [findCves_cons_some hmc] at hm
              obtain ⟨hcr, hs0, hb0⟩ := matchCveAt_some_iff.1 hmc
              rcases List.mem_cons.1 hm with rfl | hm2
              · exact ⟨[], r, by simpa using hcr, hs0, hb0⟩
              · obtain ⟨pre', post', hr, hs, hb⟩ := ih r m hrlen hm2
                exact ⟨m0 ++ pre', post', by simp [hcr, hr], hs, hb⟩
          | none =>
              rw [findCves_cons_none hmc] at hm
              obtain ⟨pre', post', hr, hs, hb⟩ := ih rest m (by omega) hm
              exact ⟨c :: pre', post', by simp [hr], hs, hb⟩

/-- Completeness of the scanner: every greedy occurrence is reported.  The
key step is that CVE matches cannot overlap, because no character after
the first of a match lowercases to `c`. -/
theorem findCves_complete : ∀ (n : Nat) (l pre m post : List Char),
    l.length ≤ n → l = pre ++ m ++ post → cveShape m = true →
    noDigitHead post = true → m ∈ findCves l := by
  intro n
  induction n with
  | zero =>
      intro l pre m post hn hl hs hb
      exfalso
      have : l = [] := List.length_eq_zero.1 (Nat.le_zero.1 hn)
      subst this
      obtain ⟨c1, mt, hm1, -⟩ := cveShape_head hs
      subst hm1
      cases pre <;> simp at hl
  | succ n ih =>
      intro l pre m post hn hl hs hb
      cases l with
      | nil =>
          exfalso
          obtain ⟨c1, mt, hm1, -⟩ := cveShape_head hs
          subst hm1
          cases pre <;> simp at hl
      | cons c rest =>
          simp only [List.length_cons] at hn
          cases hmc : matchCveAt (c :: rest) with
          | some mr =>
              obtain ⟨m0, r⟩ := mr
              have hrlen : r.length ≤ n := by
                have := matchCveAt_rest_length hmc
                simp only [List.length_cons] at this
                omega
              obtain ⟨hcr, hs0, hb0⟩ := matchCveAt_some_iff.1 hmc
              rw [findCves_cons_some hmc]
              cases pre with
              | nil =>
                  simp only [List.nil_append] at hl
                  have hdet : matchCveAt (c :: rest) = some (m, post) :=
                    matchCveAt_some_iff.2 ⟨hl, hs, hb⟩
                  rw [hmc] at hdet
                  simp only [Option.some.injEq, Prod.mk.injEq] at hdet
                  exact List.mem_cons.2 (Or.inl hdet.1.symm)
              | cons p pre' =>
                  have hsplit2 : m0 ++ r = (p :: pre') ++ (m ++ post) := by
                    rw [← hcr, hl]; simp
                  rcases List.append_eq_append_iff.1 hsplit2 with
                    ⟨e, he1, he2⟩ | ⟨e, he1, he2⟩
                  · refine List.mem_cons.2 (Or.inr
                      (ih r e m post hrlen ?_ hs hb))
                    rw [he2]; simp
                  · cases e with
                    | nil =>
                        simp only [List.append_nil] at he1
                        simp only [List.nil_append] at he2
                        exact List.mem_cons.2 (Or.inr (ih r [] m post hrlen
                          (by simpa using he2.symm) hs hb))
                    | cons e1 e' =>
                        exfalso
                        obtain ⟨c1, mt, hm1, hc1⟩ := cveShape_head hs
                        subst hm1
                        simp only [List.cons_append] at he2
                        injection he2 with hheads _
                        have he1mem : e1 ∈ m0.tail := by
                          rw [he1]
                          simp
                        have := cveShape_tail_no_c hs0 e1 he1mem
                        rw [← hheads, hc1] at this
                        simp at this
          | none =>
              rw [findCves_cons_none hmc]
              cases pre with
              | nil =>
                  exfalso
                  simp only [List.nil_append] at hl
                  have hdet : matchCveAt (c :: rest) = some (m, post) :=
                    matchCveAt_some_iff.2 ⟨hl, hs, hb⟩
                  rw [hmc] at hdet
                  cases hdet
              | cons p pre' =>
                  simp only [List.cons_append] at hl
                  injection hl with _ htail
                  exact ih rest pre' m post (by omega) htail hs hb

/-- The scanner finds exactly the greedy pattern occurrences: `m` is
reported iff `m` occurs in `l` with the CVE shape and cannot be extended
by another digit on the right. -/
theorem mem_findCves {l m : List Char} :
    m ∈ findCves l ↔
      ∃ pre post, l = pre ++ m ++ post ∧ cveShape m = true ∧
        noDigitHead post = true := by
  constructor
  · exact fun hm => findCves_sound l.length l m (le_refl _) hm
  · rintro ⟨pre, post, hl, hs, hb⟩
    exact findCves_complete l.length l pre m post (le_refl _) hl hs hb

/-- Occurrence predicate from the claim: `s` is the uppercase form of a
(greedy, i.e. not right-extendable by a digit) occurrence of the pattern
`CVE-` + 4 digits + `-` + 1-or-more digits, matched case-insensitively,
somewhere in `text`. -/
def IsCveMatch (text : List Char) (s : String) : Prop :=
  ∃ pre m post, text = pre ++ m ++ post ∧ cveShape m = true ∧
    noDigitHead post = true ∧ s = String.mk (m.map Char.toUpper)

/-- C5: `extract_cves` returns exactly the distinct identifiers matching
`CVE-` + exactly 4 digits + `-` + 1-or-more digits (case-insensitive,
greedy as `re.findall` matches), each uppercased, without duplicates;
on the spec's example it returns just `CVE-2023-1234`. -/
theorem C5_extract_cves (text : String) :
    (extract_cves text).Nodup ∧
    (∀ s, s ∈ extract_cves text ↔ IsCveMatch text.data s) ∧
    extract_cves "Patch for CVE-2023-1234 and cve-2023-1234 released" =
      ["CVE-2023-1234"] := by
  refine ⟨List.nodup_dedup _, fun s => ?_, by decide⟩
  unfold extract_cves
  rw [List.mem_dedup, List.mem_map]
  constructor
  · rintro ⟨m, hm, rfl⟩
    obtain ⟨pre, post, hl, hs, hb⟩ := mem_findCves.1 hm
    exact ⟨pre, m, post, hl, hs, hb, rfl⟩
  · rintro ⟨pre, m, post, hl, hs, hb, rfl⟩
    exact ⟨m, mem_findCves.2 ⟨pre, post, hl, hs, hb⟩, rfl⟩

/-- Witness for C5: instantiating the characterization at a concrete text
and identifier. -/
theorem C5_extract_cves_witness :
    "CVE-2020-1" ∈ extract_cves "see cve-2020-1" :=
  ((C5_extract_cves "see cve-2020-1").2.1 "CVE-2020-1").2
    ⟨"see ".data, "cve-2020-1".data, [], by decide, by decide, by decide,
      by decide⟩

/-! ### `generate_tags`

The script runs `re.findall(r"\b[a-zA-Z]{4,}\b", title.lower())` and keeps
the first 5 words not in a stop-word set.  `\b` is a word boundary: it
holds between a word character (`[A-Za-z0-9_]`, ASCII fragment of `\w`)
and a non-word character or the string edge.  For this pattern a match is
a maximal alphabetic run of length at least 4 whose neighbouring
characters are not word characters; backtracking inside a run never helps
because a shorter prefix of the run ends at a letter-letter boundary.
The scanner advances one character on failure, exactly as `re.findall`
does. -/

/-- ASCII fragment of the regex `\w` class. -/
def wordChar (c : Char) : Bool := c.isAlpha || c.isDigit || c == '_'

/-- The `\b` test on the left of a match: the previous character (if any)
is not a word character. -/
def boundaryBefore : Option Char → Bool
  | none => true
  | some p => !wordChar p

/-- The `\b` test on the right of a match: the following suffix does not
begin with a word character. -/
def noWordHead : List Char → Bool
  | [] => true
  | c :: _ => !wordChar c

/-- `re.findall(r"\b[a-zA-Z]{4,}\b", ·)` with explicit fuel (`l.length`
always suffices; each step consumes at least one character).  `prev` is
the character just before the current position, `none` at the start. -/
def scanTagsAux : Nat → Option Char → List Char → List (List Char)
  | 0, _, _ => []
  | _ + 1, _, [] => []
  | fuel + 1, prev, c :: rest =>
      if c.isAlpha then
        if boundaryBefore prev &&
            decide (4 ≤ (c :: rest.takeWhile Char.isAlpha).length) &&
            noWordHead (rest.dropWhile Char.isAlpha) then
          (c :: rest.takeWhile Char.isAlpha) ::
            scanTagsAux fuel
              (some ((rest.takeWhile Char.isAlpha).getLastD c))
              (rest.dropWhile Char.isAlpha)
        else scanTagsAux fuel (some c) rest
      else scanTagsAux fuel (some c) rest

/-- The scanner started with a given previous character. -/
def scanTagsFrom (prev : Option Char) (l : List Char) : List (List Char) :=
  scanTagsAux l.length prev l

/-- `re.findall(r"\b[a-zA-Z]{4,}\b", s)` on a whole string. -/
def findTagTokens (s : List Char) : List (List Char) :=
  scanTagsFrom none s

/-- The script's `stop_words` set. -/
def STOP_WORDS : List String :=
  ["the", "a", "an", "is", "in", "on", "at", "for", "to", "of", "and", "or",
   "with", "by", "from"]

/-- `generate_tags(title)` from the script: regex word extraction over the
lowercased title, stop-word filtering, first five kept. -/
def generate_tags (title : String) : List String :=
  (((findTagTokens (lowerStr title.data)).map fun w => String.mk w).filter
      fun w => !STOP_WORDS.contains w).take 5

/-- The claim's tokenizer read literally: ALL maximal alphabetic runs of
length at least 4 (no word-boundary requirement).  `acc` accumulates the
current run in reverse. -/
def alphaRunsAcc : List Char → List Char → List (List Char)
  | acc, [] => if acc.isEmpty then [] else [acc.reverse]
  | acc, c :: rest =>
      if c.isAlpha then alphaRunsAcc (c :: acc) rest
      else if acc.isEmpty then alphaRunsAcc [] rest
      else acc.reverse :: alphaRunsAcc [] rest

/-- `generate_tags` as the claim describes it: tokenize the lowercased
title into maximal alphabetic runs of length ≥ 4, drop stop words, keep
the first 5. -/
def generate_tags_claimed (title : String) : List String :=
  ((((alphaRunsAcc [] (lowerStr title.data)).filter fun r =>
        decide (4 ≤ r.length)).map fun w => String.mk w).filter
      fun w => !STOP_WORDS.contains w).take 5

/-- Maximal alphabetic runs of the input, each with the character just
before the run and the character just after it (`none` at the edges). -/
def runsWithNbrs : Option Char → List Char → List (Option Char × List Char × Option Char)
  | _, [] => []
  | prev, c :: rest =>
      if c.isAlpha then
        (prev, c :: rest.takeWhile Char.isAlpha,
          (rest.dropWhile Char.isAlpha).head?) ::
          runsWithNbrs (some ((rest.takeWhile Char.isAlpha).getLastD c))
            (rest.dropWhile Char.isAlpha)
      else runsWithNbrs (some c) rest
termination_by _ l => l.length
decreasing_by
  · simp only [List.length_cons]
    have := (List.dropWhile_sublist (l := rest) Char.isAlpha).length_le
    omega
  · simp

/-- The `\b` test on an optional following character. -/
def noWordOpt : Option Char → Bool
  | none => true
  | some c => !wordChar c

/-- The amended tokenizer: maximal alphabetic runs of length ≥ 4 whose
neighbouring characters are not word characters (the regex `\b`
boundaries). -/
def boundaryTokens (s : List Char) : List (List Char) :=
  ((runsWithNbrs none s).filter fun t =>
      boundaryBefore t.1 && decide (4 ≤ t.2.1.length) && noWordOpt t.2.2).map
    fun t => t.2.1

/-- `generate_tags` as amended: tokens are the boundary-qualified runs. -/
def generate_tags_amended_spec (title : String) : List String :=
  (((boundaryTokens (lowerStr title.data)).map fun w => String.mk w).filter
      fun w => !STOP_WORDS.contains w).take 5

theorem scanTagsAux_fuel : ∀ (fuel : Nat) (prev : Option Char) (l : List Char),
    l.length ≤ fuel → scanTagsAux fuel prev l = scanTagsFrom prev l := by
  intro fuel
  induction fuel using Nat.strong_induction_on with
  | _ fuel ih =>
      intro prev l h
      match fuel, l with
      | 0, [] => rfl
      | 0, c :: rest => simp at h
      | f + 1, [] => rfl
      | f + 1, c :: rest =>
          simp only [List.length_cons] at h
          have hd2 : (rest.dropWhile Char.isAlpha).length ≤ rest.length :=
            (List.dropWhile_sublist (l := rest) Char.isAlpha).length_le
          unfold scanTagsFrom
          rw [List.length_cons]
          rw [scanTagsAux, scanTagsAux]
          by_cases hA : c.isAlpha = true
          · rw [if_pos hA, if_pos hA]
            by_cases hC : (boundaryBefore prev &&
                decide (4 ≤ (c :: rest.takeWhile Char.isAlpha).length) &&
                noWordHead (rest.dropWhile Char.isAlpha)) = true
            · rw [if_pos hC, if_pos hC]
              rw [ih f (by omega) _ _ (by omega),
                ih rest.length (by omega) _ _ hd2]
            · rw [if_neg hC, if_neg hC]
              rw [ih f (by omega) _ rest (by omega),
                ih rest.length (by omega) _ rest (le_refl _)]
          · rw [if_neg hA, if_neg hA]
            rw [ih f (by omega) _ rest (by omega),
              ih rest.length (by omega) _ rest (le_refl _)]

theorem noWordHead_eq (l : List Char) : noWordHead l = noWordOpt l.head? := by
  cases l <;> rfl

/-- Scanning from inside an alphabetic run finds nothing before the run
ends: every interior position fails the leading `\b`. -/
theorem scanTagsFrom_skip : ∀ (run rest2 : List Char) (p : Char),
    wordChar p = true → (∀ x ∈ run, x.isAlpha = true) →
    scanTagsFrom (some p) (run ++ rest2) =
      scanTagsFrom (some (run.getLastD p)) rest2 := by
  intro run
  induction run with
  | nil => intro rest2 p _ _; rfl
  | cons c run' ih =>
      intro rest2 p hp hall
      have hA : c.isAlpha = true := hall c (by simp)
      have hcw : wordChar c = true := by simp [wordChar, hA]
      simp only [List.cons_append]
      unfold scanTagsFrom
      rw [List.length_cons, scanTagsAux]
      rw [if_pos hA]
      have hbf : boundaryBefore (some p) = false := by
        simp [boundaryBefore, hp]
      rw [if_neg (by simp [hbf])]
      rw [scanTagsAux_fuel _ _ _ (le_refl _)]
      rw [ih rest2 c hcw fun x hx => hall x (by simp [hx])]
      rw [List.getLastD_cons]
      rfl

/-- The scanner agrees with the boundary-qualified run decomposition. -/
theorem scanTags_eq_boundaryRuns : ∀ (n : Nat) (l : List Char)
    (prev : Option Char), l.length ≤ n →
    scanTagsFrom prev l =
      ((runsWithNbrs prev l).filter fun t =>
          boundaryBefore t.1 && decide (4 ≤ t.2.1.length) &&
            noWordOpt t.2.2).map fun t => t.2.1 := by
  intro n
  induction n with
  | zero =>
      intro l prev h
      have : l = [] := List.length_eq_zero.1 (Nat.le_zero.1 h)
      subst this
      rw [runsWithNbrs]
      rfl
  | succ n ih =>
      intro l prev h
      cases l with
      | nil =>
          rw [runsWithNbrs]
          rfl
      | cons c rest =>
          simp only [List.length_cons] at h
          have hd2 : (rest.dropWhile Char.isAlpha).length ≤ rest.length :=
            (List.dropWhile_sublist (l := rest) Char.isAlpha).length_le
          by_cases hA : c.isAlpha = true
          · rw [runsWithNbrs, if_pos hA]
            have hhd : noWordHead (rest.dropWhile Char.isAlpha) =
                noWordOpt (rest.dropWhile Char.isAlpha).head? :=
              noWordHead_eq _
            by_cases hC : (boundaryBefore prev &&
                decide (4 ≤ (c :: rest.takeWhile Char.isAlpha).length) &&
                noWordHead (rest.dropWhile Char.isAlpha)) = true
            · have hC2 : (boundaryBefore prev &&
                  decide (4 ≤ (c :: rest.takeWhile Char.isAlpha).length) &&
                  noWordOpt (rest.dropWhile Char.isAlpha).head?) = true := by
                rw [← hhd]; exact hC
              rw [List.filter_cons_of_pos (by simpa using hC2)]
              simp only [List.map_cons]
              have hlhs : scanTagsFrom prev (c :: rest) =
                  (c :: rest.takeWhile Char.isAlpha) ::
                    scanTagsAux rest.length
                      (some ((rest.takeWhile Char.isAlpha).getLastD c))
                      (rest.dropWhile Char.isAlpha) := by
                unfold scanTagsFrom
                rw [List.length_cons, scanTagsAux]
                rw [if_pos hA, if_pos hC]
              rw [hlhs, scanTagsAux_fuel _ _ _ hd2]
              rw [ih _ _ (by omega)]
            · have hC2 : (boundaryBefore prev &&
                  decide (4 ≤ (c :: rest.takeWhile Char.isAlpha).length) &&
                  noWordOpt (rest.dropWhile Char.isAlpha).head?) = false := by
                rw [← hhd]; exact Bool.eq_false_iff.2 hC
              rw [List.filter_cons_of_neg (by simpa using hC2)]
              have hlhs : scanTagsFrom prev (c :: rest) =
                  scanTagsAux rest.length (some c) rest := by
                unfold scanTagsFrom
                rw [List.length_cons, scanTagsAux]
                rw [if_pos hA, if_neg hC]
              rw [hlhs, scanTagsAux_fuel _ _ _ (le_refl _)]
              have hsplit : rest = rest.takeWhile Char.isAlpha ++
                  rest.dropWhile Char.isAlpha :=
                (List.takeWhile_append_dropWhile Char.isAlpha rest).symm
              rw [show scanTagsFrom (some c) rest =
                  scanTagsFrom (some c) (rest.takeWhile Char.isAlpha ++
                    rest.dropWhile Char.isAlpha) from by rw [← hsplit]]
              rw [scanTagsFrom_skip _ _ c (by simp [wordChar, hA])
                fun x hx => List.mem_takeWhile_imp hx]
              rw [ih _ _ (by omega)]
          · rw [runsWithNbrs, if_neg hA]
            have hlhs : scanTagsFrom prev (c :: rest) =
                scanTagsAux rest.length (some c) rest := by
              unfold scanTagsFrom
              rw [List.length_cons, scanTagsAux]
              rw [if_neg hA]
            rw [hlhs, scanTagsAux_fuel _ _ _ (le_refl _)]
            rw [ih _ _ (by omega)]

theorem findTagTokens_eq_boundaryTokens (s : List Char) :
    findTagTokens s = boundaryTokens s :=
  scanTags_eq_boundaryRuns s.length s none (le_refl _)

theorem toNat_ofNat_valid {n : Nat} (h : n < 55296) :
    (Char.ofNat n).toNat = n := by
  unfold Char.ofNat
  rw [dif_pos (Or.inl h)]
  rfl

/-- `Char.toLower` never produces a basic latin capital letter. -/
theorem toLower_isUpper_false (c : Char) : c.toLower.isUpper = false := by
  rw [Bool.eq_false_iff]
  intro hup
  have hup2 : 65 ≤ c.toLower.val ∧ c.toLower.val ≤ 90 := by
    simpa [Char.isUpper, Bool.and_eq_true, decide_eq_true_eq] using hup
  have h90 : c.toLower.toNat ≤ 90 :=
    UInt32.toNat_le_of_le (by norm_num [UInt32.size]) hup2.2
  have h65 : 65 ≤ c.toLower.toNat :=
    UInt32.le_toNat_of_le (by norm_num [UInt32.size]) hup2.1
  simp only [Char.toLower] at h90 h65
  by_cases hc : c.toNat ≥ 65 ∧ c.toNat ≤ 90
  · rw [if_pos hc] at h90
    rw [toNat_ofNat_valid (by omega)] at h90
    omega
  · rw [if_neg hc] at h90 h65
    exact hc ⟨h65, h90⟩

/-- Every token the scanner emits is an alphabetic word of length at
least 4 made of characters of the input. -/
theorem scanTagsAux_emitted : ∀ (fuel : Nat) (prev : Option Char)
    (l run : List Char), run ∈ scanTagsAux fuel prev l →
    4 ≤ run.length ∧ ∀ x ∈ run, x.isAlpha = true ∧ x ∈ l := by
  intro fuel
  induction fuel with
  | zero => intro prev l run h; simp [scanTagsAux] at h
  | succ f ih =>
      intro prev l run h
      cases l with
      | nil => simp [scanTagsAux] at h
      | cons c rest =>
          rw [scanTagsAux] at h
          by_cases hA : c.isAlpha = true
          · rw [if_pos hA] at h
            by_cases hC : (boundaryBefore prev &&
                decide (4 ≤ (c :: rest.takeWhile Char.isAlpha).length) &&
                noWordHead (rest.dropWhile Char.isAlpha)) = true
            · rw [if_pos hC] at h
              rcases List.mem_cons.1 h with rfl | h2
              · refine ⟨?_, ?_⟩
                · simp only [Bool.and_eq_true, decide_eq_true_eq] at hC
                  exact hC.1.2
                · intro x hx
                  rcases List.mem_cons.1 hx with rfl | hx2
                  · exact ⟨hA, by simp⟩
                  · exact ⟨List.mem_takeWhile_imp hx2,
                      List.mem_cons.2 (Or.inr
                        (List.takeWhile_subset Char.isAlpha hx2))⟩
              · obtain ⟨h4, hall⟩ := ih _ _ _ h2
                refine ⟨h4, fun x hx => ?_⟩
                obtain ⟨hxa, hxl⟩ := hall x hx
                exact ⟨hxa, List.mem_cons.2 (Or.inr
                  (List.dropWhile_subset Char.isAlpha hxl))⟩
            · rw [if_neg hC] at h
              obtain ⟨h4, hall⟩ := ih _ _ _ h
              refine ⟨h4, fun x hx => ?_⟩
              obtain ⟨hxa, hxl⟩ := hall x hx
              exact ⟨hxa, List.mem_cons.2 (Or.inr hxl)⟩
          · rw [if_neg hA] at h
            obtain ⟨h4, hall⟩ := ih _ _ _ h
            refine ⟨h4, fun x hx => ?_⟩
            obtain ⟨hxa, hxl⟩ := hall x hx
            exact ⟨hxa, List.mem_cons.2 (Or.inr hxl)⟩

/-- C6 counterexample: the claim's tokenizer ("alphabetic runs of length
at least 4") disagrees with the code on `"abcd1"`: the regex word
boundary `\b` rejects the run `abcd` because it is followed by a digit,
so the code returns no tags while the claimed tokenization returns
`abcd`. -/
theorem C6_generate_tags_counterexample :
    generate_tags "abcd1" = [] ∧
    generate_tags_claimed "abcd1" = ["abcd"] ∧
    generate_tags "abcd1" ≠ generate_tags_claimed "abcd1" :=
  ⟨by decide, by decide, by decide⟩

/-- C6 (amended): `generate_tags` tokenizes the lowercased title into
maximal alphabetic runs of length at least 4 whose neighbouring
characters are not word characters (the regex `\b` word boundaries, which
exclude runs adjacent to digits or underscores), removes stop words, and
returns the first 5 remaining tokens in order of appearance without
deduplication; every returned tag is a lowercase alphabetic word of
length at least 4 that is not a stop word, and the result has at most 5
elements. -/
theorem C6_generate_tags_amended (title : String) :
    generate_tags title = generate_tags_amended_spec title ∧
    (generate_tags title).length ≤ 5 ∧
    ∀ tag ∈ generate_tags title,
      4 ≤ tag.length ∧ (∀ x ∈ tag.data, x.isLower = true) ∧
        tag ∉ STOP_WORDS := by
  refine ⟨?_, ?_, ?_⟩
  · unfold generate_tags generate_tags_amended_spec
    rw [findTagTokens_eq_boundaryTokens]
  · exact List.length_take_le 5 _
  · intro tag htag
    have htag2 := List.mem_of_mem_take htag
    rw [List.mem_filter] at htag2
    obtain ⟨hmap, hstop⟩ := htag2
    rw [List.mem_map] at hmap
    obtain ⟨w, hw, rfl⟩ := hmap
    obtain ⟨h4, hall⟩ := scanTagsAux_emitted _ _ _ _ hw
    refine ⟨h4, ?_, ?_⟩
    · intro x hx
      obtain ⟨hxa, hxl⟩ := hall x hx
      obtain ⟨y, -, rfl⟩ := List.mem_map.1 hxl
      have hu := toLower_isUpper_false y
      simpa [Char.isAlpha, hu] using hxa
    · intro hmem
      have : STOP_WORDS.elem (String.mk w) = true :=
        List.elem_eq_true_of_mem hmem
      simp only [Bool.not_eq_true', List.contains_eq_any_beq] at hstop
      rw [List.elem_eq_mem, decide_eq_true_eq] at this
      have h2 : STOP_WORDS.contains (String.mk w) = true := by
        rw [List.contains_eq_any_beq, List.any_eq_true]
        exact ⟨String.mk w, this, beq_iff_eq.2 rfl⟩
      rw [List.contains_eq_any_beq] at h2
      rw [h2] at hstop
      cases hstop

/-- Witness for C6 (amended) at a concrete title and tag. -/
theorem C6_generate_tags_amended_witness :
    4 ≤ ("surge" : String).length ∧
      (∀ x ∈ ("surge" : String).data, x.isLower = true) ∧
      ("surge" : String) ∉ STOP_WORDS :=
  (C6_generate_tags_amended "Ransomware Surge Hits Banks").2.2 "surge"
    (by decide)

/-! ### `parse_rss_item`

The extractor turns one RSS `<item>` into an article record.  The
description is sanitized with
`re.sub(r"<!\[CDATA\[|\]\]>", "", ·)` then `re.sub(r"<[^>]+>", "", ·)`
then `str.strip()`. -/

/-- `re.sub(r"<!\[CDATA\[|\]\]>", "", s)`: delete every occurrence of the
CDATA markers, scanning left to right (fuel = input length; every step
consumes at least one character). -/
def removeCdataAux : Nat → List Char → List Char
  | 0, _ => []
  | _ + 1, [] => []
  | fuel + 1, c :: rest =>
      if startsWithL (c :: rest) "<![CDATA[".data then
        removeCdataAux fuel (rest.drop 8)
      else if startsWithL (c :: rest) "]]>".data then
        removeCdataAux fuel (rest.drop 2)
      else c :: removeCdataAux fuel rest

def removeCdata (s : List Char) : List Char := removeCdataAux s.length s

/-- Not the closing angle bracket (the regex class `[^>]`). -/
def notGt (c : Char) : Bool := !(c == '>')

/-- `re.sub(r"<[^>]+>", "", s)`: delete every tag-like substring: `<`,
one or more non-`>` characters, `>`.  At a `<` with no such match (empty
interior or no closing `>`), the character is kept and scanning moves on
by one, as `re.sub` does. -/
def stripTagsAux : Nat → List Char → List Char
  | 0, _ => []
  | _ + 1, [] => []
  | fuel + 1, c :: rest =>
      if c == '<' then
        if (rest.takeWhile notGt).isEmpty || (rest.dropWhile notGt).isEmpty then
          c :: stripTagsAux fuel rest
        else stripTagsAux fuel (rest.dropWhile notGt).tail
      else c :: stripTagsAux fuel rest

def stripTags (s : List Char) : List Char := stripTagsAux s.length s

/-- `str.strip()` (ASCII whitespace fragment). -/
def stripWs (s : List Char) : List Char :=
  ((s.dropWhile Char.isWhitespace).reverse.dropWhile Char.isWhitespace).reverse

/-- The description sanitization pipeline of `parse_rss_item`: CDATA
markers removed, then tag-like substrings removed, then trimmed. -/
def sanitizeDesc (s : List Char) : List Char :=
  stripWs (stripTags (removeCdata s))

/-- A raw RSS `<item>` as seen through `xml.etree.ElementTree`: each field
holds the text of the corresponding child element, `none` when the element
is missing or has no text content.  (ElementTree reports the text of an
empty element as `None`, so an absent `<title>` and an empty `<title/>`
both give `title = none`, which is exactly what the script's
`title_elem is None or title_elem.text is None` gate tests.) -/
structure RawItem where
  title : Option String
  link : Option String
  description : Option String
  pubDate : Option String

/-- The normalized article record returned by `parse_rss_item` (the keys
of the Python dict, in order; `pub_date` is parsed but not part of the
dict). -/
structure Article where
  title : List Char
  content : List Char
  summary : List Char
  category_slug : String
  severity : String
  tags : List String
  source_url : List Char
  source_name : String
  cves : List String
  vendors : List String
  skip_enrichment : Bool

/-- `parse_rss_item(item, source_name, namespaces)` from the script.  The
single validation gate is the title: no element text, no article.  All
other fields default to the empty string.  Classification runs on the
stripped title and the full sanitized (untruncated) description;
truncation to the caps (500/10000/300) happens only in the returned
record. -/
def parse_rss_item (item : RawItem) (source_name : String) : Option Article :=
  match item.title with
  | none => none
  | some t =>
      let title := stripWs t.data
      let link := match item.link with
        | some s => stripWs s.data
        | none => []
      let description := match item.description with
        | some d => sanitizeDesc d.data
        | none => []
      some
        { title := title.take 500
          content := description.take 10000
          summary := description.take 300
          category_slug :=
            categorize_article (String.mk title) (String.mk description)
          severity :=
            determine_severity (String.mk title) (String.mk description)
          tags := generate_tags (String.mk title)
          source_url := link
          source_name := source_name
          cves := extract_cves (String.mk (title ++ ' ' :: description))
          vendors := []
          skip_enrichment := false }

/-- The orchestrator's two running counters. -/
structure Counters where
  total : Nat
  success : Nat
deriving DecidableEq

/-- One iteration of the orchestrator's item loop: if the extractor
yields an article, `total_articles` is incremented and the article is
posted, incrementing `success_count` when the post reports delivery
(`postResult`); otherwise nothing changes. -/
def processItem (c : Counters) (item : RawItem) (src : String)
    (postResult : Bool) : Counters :=
  match parse_rss_item item src with
  | some _ =>
      { total := c.total + 1
        success := if postResult then c.success + 1 else c.success }
  | none => c

/-- C2: `parse_rss_item` yields no article exactly when the item's title
is absent or empty after parse (ElementTree gives `None` text for both),
such an item leaves the run counters unchanged, and every item whose
title element has text yields an article. -/
theorem C2_parse_title_gate (item : RawItem) (src : String) :
    (parse_rss_item item src = none ↔ item.title = none) ∧
    (item.title = none →
      ∀ c postRes, processItem c item src postRes = c) ∧
    (∀ t, item.title = some t → (parse_rss_item item src).isSome = true) := by
  refine ⟨?_, ?_, ?_⟩
  · cases htit : item.title with
    | none => simp [parse_rss_item, htit]
    | some t => simp [parse_rss_item, htit]
  · intro hnone c postRes
    unfold processItem
    rw [show parse_rss_item item src = none from by
      simp [parse_rss_item, hnone]]
  · intro t ht
    simp [parse_rss_item, ht]

/-- Witness for C2: a title-less item leaves concrete counters unchanged. -/
theorem C2_parse_title_gate_witness :
    processItem ⟨2, 1⟩ ⟨none, some "http://a", some "body", none⟩ "Src" true =
      ⟨2, 1⟩ :=
  (C2_parse_title_gate ⟨none, some "http://a", some "body", none⟩ "Src").2.1
    rfl ⟨2, 1⟩ true

theorem removeCdataAux_safe : ∀ (fuel : Nat) (l : List Char),
    l.length ≤ fuel → (∀ x ∈ l, x ≠ '<' ∧ x ≠ ']') →
    removeCdataAux fuel l = l := by
  intro fuel
  induction fuel with
  | zero =>
      intro l h _
      have : l = [] := List.length_eq_zero.1 (Nat.le_zero.1 h)
      subst this
      rfl
  | succ f ih =>
      intro l h hsafe
      cases l with
      | nil => rfl
      | cons c rest =>
          simp only [List.length_cons] at h
          have hc := hsafe c (by simp)
          rw [removeCdataAux]
          rw [if_neg ?hn1, if_neg ?hn2]
          · exact congrArg (c :: ·)
              (ih rest (by omega) fun x hx => hsafe x (by simp [hx]))
          case hn1 =>
            rw [show ("<![CDATA[".data) = '<' :: "![CDATA[".data from rfl]
            simp [startsWithL, hc.1]
          case hn2 =>
            rw [show ("]]>".data) = ']' :: "]>".data from rfl]
            simp [startsWithL, hc.2]

theorem stripTagsAux_safe : ∀ (fuel : Nat) (l : List Char),
    l.length ≤ fuel → (∀ x ∈ l, x ≠ '<') → stripTagsAux fuel l = l := by
  intro fuel
  induction fuel with
  | zero =>
      intro l h _
      have : l = [] := List.length_eq_zero.1 (Nat.le_zero.1 h)
      subst this
      rfl
  | succ f ih =>
      intro l h hsafe
      cases l with
      | nil => rfl
      | cons c rest =>
          simp only [List.length_cons] at h
          rw [stripTagsAux]
          rw [if_neg (by simp [hsafe c (by simp)])]
          exact congrArg (c :: ·)
            (ih rest (by omega) fun x hx => hsafe x (by simp [hx]))

theorem stripWs_safe (l : List Char)
    (h : ∀ x ∈ l, x.isWhitespace = false) : stripWs l = l := by
  unfold stripWs
  have h1 : l.dropWhile Char.isWhitespace = l := by
    cases l with
    | nil => rfl
    | cons c rest =>
        rw [List.dropWhile_cons_of_neg (by simp [h c (by simp)])]
  rw [h1]
  have h2 : l.reverse.dropWhile Char.isWhitespace = l.reverse := by
    cases hr : l.reverse with
    | nil => rfl
    | cons c rest =>
        have hc : c ∈ l := by
          rw [← List.mem_reverse, hr]
          simp
        rw [List.dropWhile_cons_of_neg (by simp [h c hc])]
  rw [h2, List.reverse_reverse]

/-- A description made of 10000 letters `a` passes sanitization
unchanged. -/
theorem sanitizeDesc_replicate_a (n : Nat) :
    sanitizeDesc (List.replicate n 'a') = List.replicate n 'a' := by
  have hmem : ∀ x ∈ List.replicate n 'a', x = 'a' :=
    fun x hx => List.eq_of_mem_replicate hx
  unfold sanitizeDesc removeCdata stripTags
  rw [removeCdataAux_safe _ _ (le_refl _)
    (fun x hx => by rw [hmem x hx]; exact ⟨by decide, by decide⟩)]
  rw [stripTagsAux_safe _ _ (le_refl _)
    (fun x hx => by rw [hmem x hx]; decide)]
  exact stripWs_safe _ fun x hx => by rw [hmem x hx]; decide

/-- C7: for an item with a present title whose sanitized description has
at least 10000 characters, the produced article's `content` is exactly
the first 10000 characters and its `summary` exactly the first 300
characters of the sanitized description; category, severity and CVEs are
computed from the untruncated sanitized text; the title is truncated to
500 characters. -/
theorem C7_truncation (item : RawItem) (src : String) (t d : String)
    (ht : item.title = some t) (hd : item.description = some d)
    (hlen : 10000 ≤ (sanitizeDesc d.data).length) :
    ∃ a, parse_rss_item item src = some a ∧
      a.content = (sanitizeDesc d.data).take 10000 ∧
      a.content.length = 10000 ∧
      a.summary = (sanitizeDesc d.data).take 300 ∧
      a.summary.length = 300 ∧
      a.title = (stripWs t.data).take 500 ∧
      a.category_slug = categorize_article (String.mk (stripWs t.data))
        (String.mk (sanitizeDesc d.data)) ∧
      a.severity = determine_severity (String.mk (stripWs t.data))
        (String.mk (sanitizeDesc d.data)) ∧
      a.cves = extract_cves
        (String.mk (stripWs t.data ++ ' ' :: sanitizeDesc d.data)) := by
  unfold parse_rss_item
  rw [ht, hd]
  dsimp only
  refine ⟨_, rfl, rfl, ?_, rfl, ?_, rfl, rfl, rfl, rfl⟩
  · rw [List.length_take]
    omega
  · rw [List.length_take]
    omega

/-- Witness for C7: a 10000-character description passes through
sanitization unchanged, so the hypothesis holds and the conclusions
evaluate. -/
theorem C7_truncation_witness :
    ∃ a, parse_rss_item
        ⟨some "Big Story", none, some (String.mk (List.replicate 10000 'a')),
          none⟩ "Src" = some a ∧
      a.content = (sanitizeDesc (String.mk
        (List.replicate 10000 'a')).data).take 10000 ∧
      a.content.length = 10000 ∧
      a.summary = (sanitizeDesc (String.mk
        (List.replicate 10000 'a')).data).take 300 ∧
      a.summary.length = 300 ∧
      a.title = (stripWs ("Big Story" : String).data).take 500 ∧
      a.category_slug = categorize_article (String.mk (stripWs
        ("Big Story" : String).data)) (String.mk (sanitizeDesc (String.mk
        (List.replicate 10000 'a')).data)) ∧
      a.severity = determine_severity (String.mk (stripWs
        ("Big Story" : String).data)) (String.mk (sanitizeDesc (String.mk
        (List.replicate 10000 'a')).data)) ∧
      a.cves = extract_cves (String.mk (stripWs ("Big Story" : String).data
        ++ ' ' :: sanitizeDesc (String.mk
          (List.replicate 10000 'a')).data)) :=
  C7_truncation _ "Src" "Big Story" (String.mk (List.replicate 10000 'a'))
    rfl rfl
    (by rw [show (String.mk (List.replicate 10000 'a')).data =
          List.replicate 10000 'a' from rfl, sanitizeDesc_replicate_a,
          List.length_replicate])

/-! ### Webhook publisher: HMAC-SHA256 signing and payload serialization

`post_to_webhook` serializes the payload with `json.dumps` (default
separators `", "` and `": "`, `ensure_ascii=True`, keys in dict insertion
order), signs the UTF-8 bytes with `hmac.new(secret, payload, sha256)`
and sends them with headers `Content-Type: application/json` and
`X-N8N-Signature: sha256=<hexdigest>`.  SHA-256 is implemented below
from FIPS 180-4 over byte lists, with 32-bit words as `Nat` reduced
modulo `2^32`. -/

/-- Reduce to a 32-bit word. -/
def w32 (n : Nat) : Nat := n % 4294967296

/-- 32-bit right rotation. -/
def rotr (x n : Nat) : Nat := w32 ((x >>> n) ||| (x <<< (32 - n)))

/-- 32-bit complement. -/
def compl32 (x : Nat) : Nat := x ^^^ 4294967295

def ch32 (x y z : Nat) : Nat := (x &&& y) ^^^ (compl32 x &&& z)

def maj32 (x y z : Nat) : Nat := (x &&& y) ^^^ (x &&& z) ^^^ (y &&& z)

def bigSigma0 (x : Nat) : Nat := rotr x 2 ^^^ rotr x 13 ^^^ rotr x 22

def bigSigma1 (x : Nat) : Nat := rotr x 6 ^^^ rotr x 11 ^^^ rotr x 25

def smallSigma0 (x : Nat) : Nat := rotr x 7 ^^^ rotr x 18 ^^^ (x >>> 3)

def smallSigma1 (x : Nat) : Nat := rotr x 17 ^^^ rotr x 19 ^^^ (x >>> 10)

/-- The SHA-256 round constants. -/
def SHA_K : List Nat :=
  [1116352408, 1899447441, 3049323471, 3921009573, 961987163,
   1508970993, 2453635748, 2870763221, 3624381080, 310598401,
   607225278, 1426881987, 1925078388, 2162078206, 2614888103,
   3248222580, 3835390401, 4022224774, 264347078, 604807628,
   770255983, 1249150122, 1555081692, 1996064986, 2554220882,
   2821834349, 2952996808, 3210313671, 3336571891, 3584528711,
   113926993, 338241895, 666307205, 773529912, 1294757372,
   1396182291, 1695183700, 1986661051, 2177026350, 2456956037,
   2730485921, 2820302411, 3259730800, 3345764771, 3516065817,
   3600352804, 4094571909, 275423344, 430227734, 506948616,
   659060556, 883997877, 958139571, 1322822218, 1537002063,
   1747873779, 1955562222, 2024104815, 2227730452, 2361852424,
   2428436474, 2756734187, 3204031479, 3329325298]

/-- The SHA-256 initial hash value. -/
def SHA_H0 : List Nat :=
  [1779033703, 3144134277, 1013904242, 2773480762,
   1359893119, 2600822924, 528734635, 1541459225]

/-- Merkle-Damgard padding: append `0x80`, zeros to 56 mod 64, and the
bit length as 8 big-endian bytes. -/
def shaPad (msg : List Nat) : List Nat :=
  let len := msg.length
  let bitLen := len * 8
  let zeros := (119 - len % 64) % 64
  msg ++ 0x80 :: List.replicate zeros 0 ++
    [bitLen >>> 56 % 256, bitLen >>> 48 % 256, bitLen >>> 40 % 256,
     bitLen >>> 32 % 256, bitLen >>> 24 % 256, bitLen >>> 16 % 256,
     bitLen >>> 8 % 256, bitLen % 256]

/-- Big-endian 4-byte groups to 32-bit words. -/
def bytesToWords : List Nat → List Nat
  | b0 :: b1 :: b2 :: b3 :: rest =>
      (b0 <<< 24 ||| b1 <<< 16 ||| b2 <<< 8 ||| b3) :: bytesToWords rest
  | _ => []

/-- Extend the 16 message words to 64 (48 extension steps). -/
def shaSchedule : List Nat → Nat → List Nat
  | w, 0 => w
  | w, f + 1 =>
      let i := w.length
      let wi := w32 (w.getD (i - 16) 0 + smallSigma0 (w.getD (i - 15) 0) +
        w.getD (i - 7) 0 + smallSigma1 (w.getD (i - 2) 0))
      shaSchedule (w ++ [wi]) f

/-- One compression round on state `[a, b, c, d, e, f, g, h]`. -/
def shaRound (st : List Nat) (k wi : Nat) : List Nat :=
  match st with
  | [a, b, c, d, e, f, g, h] =>
      let t1 := w32 (h + bigSigma1 e + ch32 e f g + k + wi)
      let t2 := w32 (bigSigma0 a + maj32 a b c)
      [w32 (t1 + t2), a, b, c, w32 (d + t1), e, f, g]
  | _ => st

def shaRounds : List Nat → List (Nat × Nat) → List Nat
  | st, [] => st
  | st, (k, wi) :: rest => shaRounds (shaRound st k wi) rest

/-- Process one 64-byte chunk. -/
def shaChunk (h : List Nat) (chunk : List Nat) : List Nat :=
  let w := shaSchedule (bytesToWords chunk) 48
  let st := shaRounds h (SHA_K.zip w)
  (h.zip st).map fun p => w32 (p.1 + p.2)

/-- Split into 64-byte chunks. -/
def chunks64 : List Nat → List (List Nat)
  | [] => []
  | b :: rest => (b :: rest).take 64 :: chunks64 ((b :: rest).drop 64)
termination_by l => l.length
decreasing_by
  simp only [List.length_drop, List.length_cons]
  omega

/-- SHA-256 of a byte list, as 32 bytes. -/
def sha256 (msg : List Nat) : List Nat :=
  let hf := (chunks64 (shaPad msg)).foldl shaChunk SHA_H0
  hf.flatMap fun wd => [wd >>> 24 % 256, wd >>> 16 % 256, wd >>> 8 % 256,
    wd % 256]

/-- `hmac.new(key, msg, hashlib.sha256).digest()` (RFC 2104; block size
64; the script's key is 24 bytes, so only zero padding applies, but the
long-key hash step is included for completeness). -/
def hmacSha256 (key msg : List Nat) : List Nat :=
  let k0 := if 64 < key.length then sha256 key else key
  let kpad := k0 ++ List.replicate (64 - k0.length) 0
  sha256 ((kpad.map fun b => b ^^^ 0x5c) ++
    sha256 ((kpad.map fun b => b ^^^ 0x36) ++ msg))

def hexDigitChar (n : Nat) : Char :=
  if n < 10 then Char.ofNat (48 + n) else Char.ofNat (87 + n)

/-- Lowercase hex rendering of a byte list (`.hexdigest()`). -/
def hexDigest (bytes : List Nat) : String :=
  String.mk (bytes.flatMap fun b => [hexDigitChar (b / 16), hexDigitChar (b % 16)])

/-- UTF-8 bytes of an ASCII string (`str.encode()`; every string the
script signs is ASCII because `json.dumps` defaults to
`ensure_ascii=True`). -/
def strBytes (s : String) : List Nat := s.data.map Char.toNat

/-- `create_hmac_signature(payload, secret)` from the script. -/
def create_hmac_signature (payload : List Nat) (secret : String) : String :=
  "sha256=" ++ hexDigest (hmacSha256 (strBytes secret) payload)

def WEBHOOK_URL : String := "http://localhost:8080/v1/webhooks/n8n"

def WEBHOOK_SECRET : String := "dev_webhook_secret_local"

/-- Opening brace character (written via its code point). -/
def lbrace : Char := Char.ofNat 123

/-- Closing brace character (written via its code point). -/
def rbrace : Char := Char.ofNat 125

def hex4 (n : Nat) : List Char :=
  [hexDigitChar (n / 4096 % 16), hexDigitChar (n / 256 % 16),
   hexDigitChar (n / 16 % 16), hexDigitChar (n % 16)]

/-- `json.dumps` escaping of one character with `ensure_ascii=True`:
quote, backslash and the short control escapes, `\uXXXX` for other
control and all non-ASCII characters (surrogate pairs above the BMP). -/
def jsonEscapeChar (c : Char) : List Char :=
  if c == '"' then ['\\', '"']
  else if c == '\\' then ['\\', '\\']
  else if c.toNat == 8 then ['\\', 'b']
  else if c.toNat == 9 then ['\\', 't']
  else if c.toNat == 10 then ['\\', 'n']
  else if c.toNat == 12 then ['\\', 'f']
  else if c.toNat == 13 then ['\\', 'r']
  else if c.toNat < 32 then '\\' :: 'u' :: hex4 c.toNat
  else if c.toNat ≤ 126 then [c]
  else if c.toNat < 65536 then '\\' :: 'u' :: hex4 c.toNat
  else
    ('\\' :: 'u' :: hex4 (55296 + (c.toNat - 65536) / 1024)) ++
      ('\\' :: 'u' :: hex4 (56320 + (c.toNat - 65536) % 1024))

/-- A JSON string literal. -/
def jsonStr (s : List Char) : List Char :=
  '"' :: s.flatMap jsonEscapeChar ++ ['"']

/-- A JSON array with `json.dumps`'s default item separator `", "`. -/
def jsonArr (items : List (List Char)) : List Char :=
  '[' :: List.intercalate [',', ' '] items ++ [']']

/-- One `"key": value` member (default key separator `": "`). -/
def jsonMember (key : String) (v : List Char) : List Char :=
  jsonStr key.data ++ ':' :: ' ' :: v

/-- A JSON object with `json.dumps`'s default separators. -/
def jsonObj (members : List (List Char)) : List Char :=
  lbrace :: List.intercalate [',', ' '] members ++ [rbrace]

/-- `json.dumps` of the article dict, keys in insertion order. -/
def serializeArticle (a : Article) : List Char :=
  jsonObj
    [jsonMember "title" (jsonStr a.title),
     jsonMember "content" (jsonStr a.content),
     jsonMember "summary" (jsonStr a.summary),
     jsonMember "category_slug" (jsonStr a.category_slug.data),
     jsonMember "severity" (jsonStr a.severity.data),
     jsonMember "tags" (jsonArr (a.tags.map fun t => jsonStr t.data)),
     jsonMember "source_url" (jsonStr a.source_url),
     jsonMember "source_name" (jsonStr a.source_name.data),
     jsonMember "cves" (jsonArr (a.cves.map fun t => jsonStr t.data)),
     jsonMember "vendors" (jsonArr (a.vendors.map fun t => jsonStr t.data)),
     jsonMember "skip_enrichment"
       (if a.skip_enrichment then "true".data else "false".data)]

/-- `json.dumps(payload)` for the webhook envelope.  `execution_id` and
`timestamp` are two independently read `datetime.utcnow().isoformat()`
values, passed in as run-time inputs. -/
def serializePayload (a : Article) (executionId timestamp : String) :
    List Char :=
  jsonObj
    [jsonMember "event_type" (jsonStr "article.created".data),
     jsonMember "data" (serializeArticle a),
     jsonMember "metadata" (jsonObj
       [jsonMember "workflow_id" (jsonStr "rss-fetcher".data),
        jsonMember "execution_id" (jsonStr executionId.data),
        jsonMember "timestamp" (jsonStr timestamp.data)])]

/-- The serialized payload's UTF-8 bytes (`.encode("utf-8")`; the
serialization is pure ASCII under `ensure_ascii=True`). -/
def payloadBytes (a : Article) (executionId timestamp : String) : List Nat :=
  (serializePayload a executionId timestamp).map Char.toNat

/-- An outbound HTTP request as `urllib.request.Request` receives it. -/
structure HttpRequest where
  url : String
  method : String
  headers : List (String × String)
  body : List Nat

/-- The `Request` that `post_to_webhook` builds: the serialized payload
bytes as body, a JSON content type, and the HMAC signature header the
script names `X-N8N-Signature`. -/
def buildWebhookRequest (a : Article) (executionId timestamp : String) :
    HttpRequest :=
  { url := WEBHOOK_URL
    method := "POST"
    headers :=
      [("Content-Type", "application/json"),
       ("X-N8N-Signature",
         create_hmac_signature (payloadBytes a executionId timestamp)
           WEBHOOK_SECRET)]
    body := payloadBytes a executionId timestamp }

/-- C4 counterexample: the signature header the code sends is named
`X-N8N-Signature`, not `X-Signature` as the claim states; no header named
`X-Signature` is present on a concretely built request. -/
theorem C4_signature_header_counterexample :
    ((buildWebhookRequest
        ⟨"Title".data, [], [], "industry-news", "medium", [], [], "Src", [],
          [], false⟩
        "2024-01-01T00:00:00" "2024-01-01T00:00:00").headers.map
      Prod.fst = ["Content-Type", "X-N8N-Signature"]) ∧
    ¬ ∃ v, ("X-Signature", v) ∈ (buildWebhookRequest
        ⟨"Title".data, [], [], "industry-news", "medium", [], [], "Src", [],
          [], false⟩
        "2024-01-01T00:00:00" "2024-01-01T00:00:00").headers := by
  constructor
  · rfl
  · rintro ⟨v, hv⟩
    simp only [buildWebhookRequest, List.mem_cons, List.mem_singleton,
      Prod.mk.injEq, List.not_mem_nil, or_false] at hv
    rcases hv with ⟨h1, -⟩ | ⟨h1, -⟩ <;> simp at h1

/-- C4 (amended): every published article's POST request carries a
`Content-Type: application/json` header and a header named
`X-N8N-Signature` whose value is `sha256=` followed by the hex digest of
the HMAC-SHA256, keyed with the pre-shared secret, of exactly the
serialized payload bytes sent as the request body. -/
theorem C4_signature_header (a : Article) (executionId timestamp : String) :
    (buildWebhookRequest a executionId timestamp).headers =
      [("Content-Type", "application/json"),
       ("X-N8N-Signature",
         "sha256=" ++ hexDigest (hmacSha256 (strBytes WEBHOOK_SECRET)
           (payloadBytes a executionId timestamp)))] ∧
    (buildWebhookRequest a executionId timestamp).body =
      payloadBytes a executionId timestamp ∧
    (buildWebhookRequest a executionId timestamp).method = "POST" :=
  ⟨rfl, rfl, rfl⟩

/-- What `urllib.request.urlopen` does for the POST, as seen by
`post_to_webhook`:
* `response validJson` — a non-error HTTP response was returned; the
  script then runs `json.loads` on the body (`validJson` records whether
  that parse succeeds);
* `httpError code` — the server answered with an HTTP error status, for
  which `urlopen` raises `HTTPError`, a subclass of `URLError`;
* `transportError` — connection refused, timeout or DNS failure:
  `urlopen` raises a plain `URLError`. -/
inductive PostOutcome
  | response (validJson : Bool)
  | httpError (code : Nat)
  | transportError
deriving DecidableEq

/-- The control flow of `post_to_webhook` on each outcome.  `Except.ok b`
is a normal return of `b`; `Except.error ()` is an exception escaping the
function: the `except URLError` clause catches `HTTPError` (a `URLError`
subclass) as well as transport errors and returns `False`, while a
`json.loads` failure on a successful response is uncaught. -/
def post_to_webhook : PostOutcome → Except Unit Bool
  | .response true => .ok true
  | .response false => .error ()
  | .httpError _ => .ok false
  | .transportError => .ok false

/-- C3 counterexample: on an HTTP error status (no transport-level
error), the code reports not-delivered, because `urlopen` raises
`HTTPError`, a subclass of the caught `URLError` — so success is not
equivalent to "completed without transport-level error". -/
theorem C3_delivery_counterexample :
    post_to_webhook (.httpError 500) = .ok false ∧
    (.httpError 500 : PostOutcome) ≠ .transportError ∧
    ¬ (post_to_webhook (.httpError 500) = .ok true ↔
        (.httpError 500 : PostOutcome) ≠ .transportError) := by
  refine ⟨rfl, by simp, ?_⟩
  intro h
  have := h.2 (by simp)
  simp [post_to_webhook] at this

/-- C3 (amended): `post_to_webhook` returns `True` exactly when the POST
yields a non-error HTTP response whose body parses as JSON; it returns
`False` (not-delivered) exactly when `urlopen` raises `URLError` — which
covers transport errors (connection refused, timeout, DNS failure) and
also HTTP error statuses, since `urllib` raises them as `HTTPError`, a
`URLError` subclass; a non-error response with a non-JSON body raises an
uncaught exception instead of returning. -/
theorem C3_delivery_contract (r : PostOutcome) :
    (post_to_webhook r = .ok true ↔ r = .response true) ∧
    (post_to_webhook r = .ok false ↔
      (∃ code, r = .httpError code) ∨ r = .transportError) ∧
    (post_to_webhook r = .error () ↔ r = .response false) := by
  cases r with
  | response b => cases b <;> simp [post_to_webhook]
  | httpError code =>
      refine ⟨by simp [post_to_webhook], ?_, by simp [post_to_webhook]⟩
      simp only [post_to_webhook, true_iff]
      exact Or.inl ⟨code, rfl⟩
  | transportError => simp [post_to_webhook]

/-- Witness for C3 (amended): a transport error is reported as
not-delivered. -/
theorem C3_delivery_contract_witness :
    post_to_webhook .transportError = .ok false :=
  (C3_delivery_contract .transportError).2.1.2 (Or.inr rfl)

/-! ### Pipeline orchestrator -/

/-- A fetched feed document: the RSS `item` elements found anywhere in
it, and the Atom-namespace `entry` elements. -/
structure FeedDoc where
  rssItems : List RawItem
  atomEntries : List RawItem

/-- Item discovery in `main`: `root.findall(".//item")`, falling back to
Atom entries only when zero RSS items were found. -/
def discoveredItems (doc : FeedDoc) : List RawItem :=
  if doc.rssItems.isEmpty then doc.atomEntries else doc.rssItems

/-- The orchestrator's item loop over a feed's (already capped) item
list.  `posts` is the delivery oracle: the outcome `post_to_webhook`
reports for the n-th article posted in the whole run (indexed by the
current `total_articles`, which counts exactly the posted articles). -/
def processItems (posts : Nat → Bool) :
    Counters → String → List RawItem → Counters
  | c, _, [] => c
  | c, src, item :: rest =>
      processItems posts (processItem c item src (posts c.total)) src rest

/-- One feed iteration of `main`: a failed fetch (or XML parse) skips the
feed entirely; otherwise at most the first 10 discovered items are
processed. -/
def processFeed (posts : Nat → Bool) (c : Counters) (feedName : String) :
    Option FeedDoc → Counters
  | none => c
  | some doc => processItems posts c feedName ((discoveredItems doc).take 10)

/-- `main()` over the run's external outcomes: one optional feed document
per configured feed and the per-article delivery oracle.  Both counters
start at zero.  Returns the final counters together with the process exit
status (`sys.exit(main())` with `return 0 if success_count > 0 else 1`). -/
def runMain (posts : Nat → Bool)
    (feeds : List (String × Option FeedDoc)) : Counters × Nat :=
  let final := feeds.foldl (fun c f => processFeed posts c f.1 f.2) ⟨0, 0⟩
  (final, if 0 < final.success then 0 else 1)

theorem processItem_cases (c : Counters) (item : RawItem) (src : String)
    (pr : Bool) :
    (parse_rss_item item src = none ∧ processItem c item src pr = c) ∨
    ((parse_rss_item item src).isSome = true ∧
      (processItem c item src pr).total = c.total + 1 ∧
      (processItem c item src pr).success =
        c.success + (if pr then 1 else 0)) := by
  unfold processItem
  cases hp : parse_rss_item item src with
  | none => exact Or.inl ⟨rfl, rfl⟩
  | some a =>
      refine Or.inr ⟨rfl, rfl, ?_⟩
      cases pr <;> simp

theorem processItem_invariant (c : Counters) (item : RawItem) (src : String)
    (pr : Bool) (h : c.success ≤ c.total) :
    (processItem c item src pr).success ≤ (processItem c item src pr).total := by
  rcases processItem_cases c item src pr with ⟨-, he⟩ | ⟨-, ht, hs⟩
  · rw [he]; exact h
  · rw [ht, hs]; cases pr <;> simp <;> omega

theorem processItem_total_le (c : Counters) (item : RawItem) (src : String)
    (pr : Bool) :
    c.total ≤ (processItem c item src pr).total ∧
      (processItem c item src pr).total ≤ c.total + 1 := by
  rcases processItem_cases c item src pr with ⟨-, he⟩ | ⟨-, ht, -⟩
  · rw [he]; omega
  · rw [ht]; omega

theorem processItems_total_le (posts : Nat → Bool) :
    ∀ (items : List RawItem) (c : Counters) (src : String),
    (processItems posts c src items).total ≤ c.total + items.length := by
  intro items
  induction items with
  | nil => intro c src; simp [processItems]
  | cons item rest ih =>
      intro c src
      rw [processItems]
      have h1 := (processItem_total_le c item src (posts c.total)).2
      have h2 := ih (processItem c item src (posts c.total)) src
      simp only [List.length_cons]
      omega

theorem processItems_invariant (posts : Nat → Bool) :
    ∀ (items : List RawItem) (c : Counters) (src : String),
    c.success ≤ c.total →
    (processItems posts c src items).success ≤
      (processItems posts c src items).total := by
  intro items
  induction items with
  | nil => intro c src h; exact h
  | cons item rest ih =>
      intro c src h
      rw [processItems]
      exact ih _ src (processItem_invariant c item src (posts c.total) h)

theorem processFeed_invariant (posts : Nat → Bool) (c : Counters)
    (name : String) (doc : Option FeedDoc) (h : c.success ≤ c.total) :
    (processFeed posts c name doc).success ≤
      (processFeed posts c name doc).total := by
  cases doc with
  | none => exact h
  | some d => exact processItems_invariant posts _ c name h

theorem runMain_invariant (posts : Nat → Bool)
    (feeds : List (String × Option FeedDoc)) :
    (runMain posts feeds).1.success ≤ (runMain posts feeds).1.total := by
  unfold runMain
  dsimp only
  have : ∀ (fs : List (String × Option FeedDoc)) (c : Counters),
      c.success ≤ c.total →
      (fs.foldl (fun c f => processFeed posts c f.1 f.2) c).success ≤
        (fs.foldl (fun c f => processFeed posts c f.1 f.2) c).total := by
    intro fs
    induction fs with
    | nil => intro c h; exact h
    | cons f rest ih =>
        intro c h
        exact ih _ (processFeed_invariant posts c f.1 f.2 h)
  exact this feeds ⟨0, 0⟩ (le_refl 0)

/-- C8: the orchestrator processes at most the first 10 discovered items
of a feed in document order (Atom entries are searched only when zero RSS
items were found), so one feed adds at most 10 to `total_articles`. -/
theorem C8_per_feed_cap (posts : Nat → Bool) (c : Counters) (name : String)
    (doc : FeedDoc) :
    processFeed posts c name (some doc) =
      processItems posts c name ((discoveredItems doc).take 10) ∧
    (processFeed posts c name (some doc)).total ≤ c.total + 10 ∧
    (doc.rssItems ≠ [] → discoveredItems doc = doc.rssItems) ∧
    (doc.rssItems = [] → discoveredItems doc = doc.atomEntries) := by
  refine ⟨rfl, ?_, ?_, ?_⟩
  · have h1 := processItems_total_le posts ((discoveredItems doc).take 10)
      c name
    have h2 : ((discoveredItems doc).take 10).length ≤ 10 :=
      List.length_take_le 10 _
    exact le_trans h1 (by omega)
  · intro h
    simp [discoveredItems, h]
  · intro h
    simp [discoveredItems, h]

/-- Witness for C8: a feed with one RSS item uses the RSS items, and a
feed with none falls back to its Atom entries. -/
theorem C8_per_feed_cap_witness :
    discoveredItems ⟨[⟨some "t", none, none, none⟩], []⟩ =
        [(⟨some "t", none, none, none⟩ : RawItem)] ∧
      discoveredItems ⟨[], [⟨some "u", none, none, none⟩]⟩ =
        [(⟨some "u", none, none, none⟩ : RawItem)] :=
  ⟨(C8_per_feed_cap (fun _ => true) ⟨0, 0⟩ "F"
      ⟨[⟨some "t", none, none, none⟩], []⟩).2.2.1 (by simp),
   (C8_per_feed_cap (fun _ => true) ⟨0, 0⟩ "F"
      ⟨[], [⟨some "u", none, none, none⟩]⟩).2.2.2 rfl⟩

/-- C9: the process exit status is zero exactly when at least one article
was delivered (`success_count > 0`); zero successes — including a run
that found no articles at all — exits non-zero (1). -/
theorem C9_exit_status (posts : Nat → Bool)
    (feeds : List (String × Option FeedDoc)) :
    ((runMain posts feeds).2 = 0 ↔ 0 < (runMain posts feeds).1.success) ∧
    ((runMain posts feeds).1.success = 0 → (runMain posts feeds).2 = 1) := by
  unfold runMain
  dsimp only
  by_cases h : 0 <
      (feeds.foldl (fun c f => processFeed posts c f.1 f.2) ⟨0, 0⟩).success
  · rw [if_pos h]
    exact ⟨⟨fun _ => h, fun _ => rfl⟩, fun h0 => absurd h (by omega)⟩
  · rw [if_neg h]
    exact ⟨⟨fun h1 => absurd h1 (by omega), fun hx => absurd hx h⟩,
      fun _ => rfl⟩

/-- Witness for C9: the empty run has zero successes and exits 1. -/
theorem C9_exit_status_witness :
    (runMain (fun _ => true) []).2 = 1 :=
  (C9_exit_status (fun _ => true) []).2 rfl

/-- C10: both counters start at zero; an item that yields an article
increments `total_articles` by exactly one and `success_count` by at most
one (exactly when its post is delivered); an item that yields no article
changes nothing; consequently `success_count ≤ total_articles` is
preserved by every step and holds at the end of every run. -/
theorem C10_counters_invariant (posts : Nat → Bool)
    (feeds : List (String × Option FeedDoc)) (c : Counters)
    (item : RawItem) (src : String) (pr : Bool) :
    (c.success ≤ c.total →
      (processItem c item src pr).success ≤
        (processItem c item src pr).total) ∧
    ((parse_rss_item item src).isSome = true →
      (processItem c item src pr).total = c.total + 1 ∧
      (processItem c item src pr).success =
        c.success + (if pr then 1 else 0)) ∧
    (parse_rss_item item src = none → processItem c item src pr = c) ∧
    (runMain posts feeds).1 =
      feeds.foldl (fun c f => processFeed posts c f.1 f.2) ⟨0, 0⟩ ∧
    (runMain posts feeds).1.success ≤ (runMain posts feeds).1.total := by
  refine ⟨processItem_invariant c item src pr, ?_, ?_, rfl,
    runMain_invariant posts feeds⟩
  · intro hsome
    rcases processItem_cases c item src pr with ⟨hn, -⟩ | ⟨-, ht, hs⟩
    · rw [hn] at hsome; cases hsome
    · exact ⟨ht, hs⟩
  · intro hnone
    rcases processItem_cases c item src pr with ⟨-, he⟩ | ⟨hs, -⟩
    · exact he
    · rw [hnone] at hs; cases hs

/-- Witness for C10 at concrete inputs: an article-bearing item with a
delivered post moves the counters from (2, 1) to (3, 2). -/
theorem C10_counters_invariant_witness :
    (processItem ⟨2, 1⟩ ⟨some "T", none, none, none⟩ "s" true).total = 3 ∧
    (processItem ⟨2, 1⟩ ⟨some "T", none, none, none⟩ "s" true).success = 2 := by
  have h := (C10_counters_invariant (fun _ => true) [] ⟨2, 1⟩
    ⟨some "T", none, none, none⟩ "s" true).2.1 (by rfl)
  exact ⟨h.1, by rw [h.2]; rfl⟩

end RssFetch
